import Mathlib

/-!
Verification of the LSH shell (main.c, shell_funcs.c) against its
natural-language specification.  The C functions are shallowly embedded:
the tokenizer and line reader become pure Lean functions over `List Char`,
stateful builtins become explicit state-passing functions over a
`ShellState`, and OS behaviour (chdir, fork, waitpid) is an explicit
oracle parameter.
-/

/-- `LSH_RL_BUFSIZE` from main.c: initial (and increment) capacity of the
line-reader character buffer. -/
def LSH_RL_BUFSIZE : Nat := 1024

/-- `LSH_TOK_BUFSIZE` from main.c: initial (and increment) capacity of the
token-pointer array. -/
def LSH_TOK_BUFSIZE : Nat := 64

/-- `LSH_TOK_DELIM` from main.c: the delimiter set `" \t\r\n\a"` used by
`strtok`. -/
def isDelim (c : Char) : Bool :=
  c = ' ' || c = '\t' || c = '\r' || c = '\n' || c = '\x07'

theorem length_dropWhile_le (p : Char → Bool) :
    ∀ l : List Char, (l.dropWhile p).length ≤ l.length := by
  intro l
  induction l with
  | nil => simp
  | cons c cs ih =>
    by_cases h : p c
    · simp only [List.dropWhile_cons, h, if_true]
      exact Nat.le_succ_of_le ih
    · simp [List.dropWhile_cons, h]

/-- The token sequence produced by the `strtok` loop in `lsh_split_line`
(main.c): `strtok` skips leading delimiters and returns each maximal run
of non-delimiter characters in turn, `NULL` when the line is exhausted. -/
def strtokAll (l : List Char) : List (List Char) :=
  match l with
  | [] => []
  | c :: cs =>
    if isDelim c then strtokAll cs
    else (c :: cs.takeWhile (fun x => !isDelim x)) ::
      strtokAll (cs.dropWhile (fun x => !isDelim x))
termination_by l.length
decreasing_by
  · simp
  · simpa using Nat.lt_succ_of_le (length_dropWhile_le _ cs)

/-- The contents of the array returned by `lsh_split_line` (main.c):
the tokens found by the `strtok` loop, followed by the `NULL` sentinel
stored by `tokens[position] = NULL`.  Entries are `some token` or `none`
(the null pointer). -/
def lsh_split_line (line : List Char) : List (Option (List Char)) :=
  (strtokAll line).map some ++ [none]

/-- Spec-side tokenizer (section 4.2 of the spec): split on the fixed
delimiter set and emit no empty tokens — consecutive delimiters act as a
single separator, leading/trailing delimiters produce nothing. -/
def specTokenize (l : List Char) : List (List Char) :=
  (l.splitOnP isDelim).filter (fun t => !t.isEmpty)

/-- A status reported by `waitpid` for the child: the child exited
normally (`WIFEXITED`), was terminated by a signal (`WIFSIGNALED`), or
was stopped by a signal (`WIFSTOPPED`, reported because `WUNTRACED` is
passed). -/
inductive WaitStatus where
  | exited (code : Nat)
  | signaled (sig : Nat)
  | stopped (sig : Nat)
deriving Repr, DecidableEq

def WIFEXITED : WaitStatus → Bool
  | WaitStatus.exited _ => true
  | _ => false

def WIFSIGNALED : WaitStatus → Bool
  | WaitStatus.signaled _ => true
  | _ => false

def WIFSTOPPED : WaitStatus → Bool
  | WaitStatus.stopped _ => true
  | _ => false

/-- The `do { waitpid(pid, &status, WUNTRACED); } while (!WIFEXITED(status)
&& !WIFSIGNALED(status));` loop in the parent branch of `lsh_launch`
(shell_funcs.c).  The list is the sequence of statuses the OS delivers for
this child, in order; the loop consumes them until one satisfies the exit
condition and returns that status. `none` models a wait that never sees a
terminal status (the parent stays blocked in the loop). -/
def waitpidLoop : List WaitStatus → Option WaitStatus
  | [] => none
  | e :: es => if WIFEXITED e || WIFSIGNALED e then some e else waitpidLoop es

/-- Observable shell process state: the working directory plus everything
written so far to stdout and stderr. -/
structure ShellState where
  cwd : List Char
  out : List String
  err : List String
deriving Repr, DecidableEq

/-- OS oracle: the outcomes the operating system chooses for the system
calls the shell makes.  `chdir cwd dir` is `some newCwd` on success and
`none` on failure; `chdirErrMsg` is the `perror("lsh")` text for a failed
`chdir`; `forkOk` says whether `fork` succeeds; `forkErrMsg` is the
`perror("lsh")` text for a failed `fork`; `execOutput args cwd` is the
terminal output produced by the child process (the external program, or
the `perror` message when `execvp` fails). -/
structure OS where
  chdir : List Char → List Char → Option (List Char)
  chdirErrMsg : List Char → String
  forkOk : Bool
  forkErrMsg : String
  execOutput : List (List Char) → List Char → List String

/-- `lsh_cd` (shell_funcs.c): if `args[1] == NULL`, print the usage
message to stderr; otherwise call `chdir(args[1])` and on failure print
`perror("lsh")` to stderr.  Returns 1 in every case. -/
def lsh_cd (os : OS) (args : List (List Char)) (s : ShellState) :
    Nat × ShellState :=
  match args.get? 1 with
  | none =>
      (1, { s with err := s.err ++ ["lsh: expected argument to \"cd\"\n"] })
  | some dir =>
      match os.chdir s.cwd dir with
      | some newCwd => (1, { s with cwd := newCwd })
      | none => (1, { s with err := s.err ++ [os.chdirErrMsg dir] })

/-- `builtin_str` (shell_funcs.c): the registered builtin names, in
registration order. -/
def builtin_str : List (List Char) :=
  ["cd".toList, "help".toList, "exit".toList]

/-- `lsh_help` (shell_funcs.c): prints the banner, one line per builtin
name, and the closing line to stdout; returns 1. -/
def lsh_help (args : List (List Char)) (s : ShellState) :
    Nat × ShellState :=
  (1, { s with out := s.out ++
    ["Omer Hayat\x27s LSH\n",
     "Type program names and arguments, and hit enter.\n",
     "The following are built-in:\n"] ++
    builtin_str.map (fun b => " " ++ String.mk b ++ "\n") ++
    ["Use the man command for information on other programs.\n"] })

/-- `lsh_exit` (shell_funcs.c): ignores its arguments, touches nothing,
returns 0. -/
def lsh_exit (args : List (List Char)) (s : ShellState) :
    Nat × ShellState :=
  (0, s)

/-- `lsh_launch` (shell_funcs.c): fork; on fork failure print
`perror("lsh")` and return 1; otherwise the child execs (its output — or
its `execvp` failure message — reaches the terminal) while the parent
waits for the child to terminate, then returns 1. -/
def lsh_launch (os : OS) (args : List (List Char)) (s : ShellState) :
    Nat × ShellState :=
  if os.forkOk then
    (1, { s with out := s.out ++ os.execOutput args s.cwd })
  else
    (1, { s with err := s.err ++ [os.forkErrMsg] })

/-- `builtin_func` (shell_funcs.c): the handler table, parallel to
`builtin_str`. -/
def builtin_func (os : OS) :
    List (List (List Char) → ShellState → Nat × ShellState) :=
  [lsh_cd os, lsh_help, lsh_exit]

/-- `lsh_num_builtins` (shell_funcs.c). -/
def lsh_num_builtins : Nat := builtin_str.length

/-- The `for (i = 0; i < lsh_num_builtins(); i++)` scan in `lsh_execute`:
compare `args[0]` with each registered name in order; on the first match
invoke the matching handler; if none matches, fall through to
`lsh_launch`. -/
def execScan (os : OS)
    (table : List ((List Char) ×
      (List (List Char) → ShellState → Nat × ShellState)))
    (a0 : List Char) (args : List (List Char)) (s : ShellState) :
    Nat × ShellState :=
  match table with
  | [] => lsh_launch os args s
  | (name, f) :: rest =>
      if a0 = name then f args s else execScan os rest a0 args s

/-- `lsh_execute` (shell_funcs.c): empty vector returns 1 at once;
otherwise scan the builtin table on `args[0]` and fall through to
`lsh_launch`. -/
def lsh_execute (os : OS) (args : List (List Char)) (s : ShellState) :
    Nat × ShellState :=
  match args with
  | [] => (1, s)
  | a0 :: _ => execScan os (builtin_str.zip (builtin_func os)) a0 args s

/-- `lsh_loop` (main.c): per iteration print the prompt, read a line,
tokenize it, dispatch it, and repeat while the status is non-zero.  The
script is the sequence of lines the Reader delivers; `none` models the
loop still running when the script is exhausted (on a closed input stream
the real Reader returns empty lines forever, so the loop never ends). -/
def lsh_loop (os : OS) : List (List Char) → ShellState → Option ShellState
  | [], _ => none
  | line :: rest, s =>
      let s1 : ShellState := { s with out := s.out ++ ["> "] }
      let r := lsh_execute os (strtokAll line) s1
      if r.1 = 0 then some r.2 else lsh_loop os rest r.2

/-- `main` (main.c): run `lsh_loop` and return `EXIT_SUCCESS` (0).  The
result is the process exit code paired with the final state, `none` when
the loop never terminates. -/
def main_lsh (os : OS) (script : List (List Char)) (s : ShellState) :
    Option (Nat × ShellState) :=
  (lsh_loop os script s).map (fun s2 => (0, s2))

/-- The body of `lsh_read_line` (main.c) as a write log.  Input is the
remaining stream characters (the list ending models EOF).  Returns the
line built so far paired with the log of buffer writes, each recorded as
(index written, capacity at the time of the write).  A write happens for
every stored character and for the final terminator; after each stored
character `position` is incremented and the capacity check
`position >= bufsize` grows the buffer before the next write. -/
def lsh_read_line_go : List Char → Nat → Nat → List Char × List (Nat × Nat)
  | [], pos, bufsize => ([], [(pos, bufsize)])
  | c :: cs, pos, bufsize =>
    if c = '\n' then ([], [(pos, bufsize)])
    else
      let bufsize2 := if pos + 1 ≥ bufsize then bufsize + LSH_RL_BUFSIZE
        else bufsize
      let r := lsh_read_line_go cs (pos + 1) bufsize2
      (c :: r.1, (pos, bufsize) :: r.2)

/-- `lsh_read_line` (main.c): start at position 0 with capacity
`LSH_RL_BUFSIZE`. -/
def lsh_read_line (input : List Char) : List Char × List (Nat × Nat) :=
  lsh_read_line_go input 0 LSH_RL_BUFSIZE

/-- The token-array writes of `lsh_split_line` (main.c) as a write log,
driven by the number of tokens `strtok` yields: one write
`tokens[position++] = token` per token — each followed by the capacity
check `position >= bufsize` which grows the array before the next
write — and the final sentinel write `tokens[position] = NULL`. -/
def lsh_split_line_go : Nat → Nat → Nat → List (Nat × Nat)
  | 0, pos, bufsize => [(pos, bufsize)]
  | Nat.succ m, pos, bufsize =>
      let bufsize2 := if pos + 1 ≥ bufsize then bufsize + LSH_TOK_BUFSIZE
        else bufsize
      (pos, bufsize) :: lsh_split_line_go m (pos + 1) bufsize2

/-- The full write log of `lsh_split_line` on a given line: start at
position 0 with capacity `LSH_TOK_BUFSIZE`, one write per token plus the
sentinel write. -/
def lsh_split_line_writes (line : List Char) : List (Nat × Nat) :=
  lsh_split_line_go (strtokAll line).length 0 LSH_TOK_BUFSIZE

/-- Concrete shell state for witnesses. -/
def st0 : ShellState := { cwd := "/".toList, out := [], err := [] }

/-- Concrete OS oracle: `chdir` always fails, `fork` succeeds, external
programs produce no output. -/
def os0 : OS :=
  { chdir := fun _ _ => none
    chdirErrMsg := fun _ => "lsh: No such file or directory\n"
    forkOk := true
    forkErrMsg := "lsh: fork error\n"
    execOutput := fun _ _ => [] }

/-- Concrete OS oracle whose `chdir` always succeeds, moving to the
requested directory. -/
def os1 : OS :=
  { chdir := fun _ dir => some dir
    chdirErrMsg := fun _ => "lsh: No such file or directory\n"
    forkOk := true
    forkErrMsg := "lsh: fork error\n"
    execOutput := fun _ _ => [] }

theorem lsh_cd_fst (os : OS) (args : List (List Char)) (s : ShellState) :
    (lsh_cd os args s).1 = 1 := by
  unfold lsh_cd
  split
  · rfl
  · split <;> rfl

theorem lsh_launch_fst (os : OS) (args : List (List Char)) (s : ShellState) :
    (lsh_launch os args s).1 = 1 := by
  unfold lsh_launch
  by_cases h : os.forkOk <;> simp [h]

theorem lsh_execute_zero_iff (os : OS) (args : List (List Char))
    (s : ShellState) :
    (lsh_execute os args s).1 = 0 ↔ args.head? = some "exit".toList := by
  cases args with
  | nil => simp [lsh_execute]
  | cons a0 rest =>
    have htab : builtin_str.zip (builtin_func os) =
        [("cd".toList, lsh_cd os), ("help".toList, lsh_help),
         ("exit".toList, lsh_exit)] := rfl
    simp only [lsh_execute, htab, execScan, List.head?, Option.some.injEq]
    by_cases h1 : a0 = "cd".toList
    · subst h1
      rw [if_pos rfl]
      apply iff_of_false
      · simp [lsh_cd_fst]
      · decide
    · by_cases h2 : a0 = "help".toList
      · subst h2
        rw [if_neg (by decide), if_pos rfl]
        apply iff_of_false
        · simp [lsh_help]
        · decide
      · by_cases h3 : a0 = "exit".toList
        · subst h3
          rw [if_neg (by decide), if_neg (by decide), if_pos rfl]
          exact iff_of_true rfl rfl
        · rw [if_neg h1, if_neg h2, if_neg h3]
          apply iff_of_false
          · simp [lsh_launch_fst]
          · exact h3

theorem lsh_loop_isSome_iff (os : OS) :
    ∀ (script : List (List Char)) (s : ShellState),
    (lsh_loop os script s).isSome = true ↔
      ∃ line ∈ script, (strtokAll line).head? = some "exit".toList := by
  intro script
  induction script with
  | nil => intro s; simp [lsh_loop]
  | cons line rest ih =>
    intro s
    simp only [lsh_loop]
    by_cases h : (lsh_execute os (strtokAll line)
        { s with out := s.out ++ ["> "] }).1 = 0
    · rw [if_pos h]
      exact iff_of_true rfl
        ⟨line, List.mem_cons_self _ _, (lsh_execute_zero_iff _ _ _).mp h⟩
    · rw [if_neg h, ih]
      constructor
      · rintro ⟨l, hl, hP⟩
        exact ⟨l, List.mem_cons_of_mem _ hl, hP⟩
      · rintro ⟨l, hl, hP⟩
        rcases List.mem_cons.mp hl with rfl | hl2
        · exact absurd ((lsh_execute_zero_iff _ _ _).mpr hP) h
        · exact ⟨l, hl2, hP⟩

/-- C1: the status returned by `lsh_execute` is zero exactly when the
argument vector's first element is the string "exit"; consequently
`lsh_loop` terminates exactly when some script line dispatches the exit
builtin, and every other input yields status 1 (non-zero). -/
theorem claim_C1 (os : OS) :
    (∀ (args : List (List Char)) (s : ShellState),
      ((lsh_execute os args s).1 = 0 ↔ args.head? = some "exit".toList) ∧
      ((lsh_execute os args s).1 = 0 ∨ (lsh_execute os args s).1 = 1)) ∧
    (∀ (script : List (List Char)) (s : ShellState),
      (lsh_loop os script s).isSome = true ↔
        ∃ line ∈ script, (strtokAll line).head? = some "exit".toList) := by
  constructor
  · intro args s
    refine ⟨lsh_execute_zero_iff os args s, ?_⟩
    cases args with
    | nil => right; rfl
    | cons a0 rest =>
      have htab : builtin_str.zip (builtin_func os) =
          [("cd".toList, lsh_cd os), ("help".toList, lsh_help),
           ("exit".toList, lsh_exit)] := rfl
      simp only [lsh_execute, htab, execScan]
      by_cases h1 : a0 = "cd".toList
      · rw [if_pos h1]; right; exact lsh_cd_fst os _ s
      · rw [if_neg h1]
        by_cases h2 : a0 = "help".toList
        · rw [if_pos h2]; right; rfl
        · rw [if_neg h2]
          by_cases h3 : a0 = "exit".toList
          · rw [if_pos h3]; left; rfl
          · rw [if_neg h3]; right; exact lsh_launch_fst os _ s
  · exact lsh_loop_isSome_iff os

/-- C6: an argument vector whose first element is absent (the empty
vector, as produced by the tokenizer from an empty or all-delimiter
line) makes `lsh_execute` return 1 with the state — output, error
stream, working directory — completely unchanged. -/
theorem claim_C6 (os : OS) :
    (∀ s : ShellState, lsh_execute os [] s = (1, s)) ∧
    (∀ line : List Char, (∀ c ∈ line, isDelim c = true) →
      strtokAll line = [] ∧ lsh_split_line line = [none]) := by
  constructor
  · intro s; rfl
  · intro line h
    have ht : strtokAll line = [] := by
      induction line with
      | nil => rw [strtokAll]
      | cons c cs ih =>
        rw [strtokAll, if_pos (h c (List.mem_cons_self _ _))]
        exact ih (fun x hx => h x (List.mem_cons_of_mem _ hx))
    exact ⟨ht, by simp [lsh_split_line, ht]⟩

theorem claim_C6_witness :
    lsh_execute os0 [] st0 = (1, st0) ∧
    (∀ c ∈ [' ', '\t', '\n'], isDelim c = true) ∧
    strtokAll [' ', '\t', '\n'] = [] :=
  ⟨(claim_C6 os0).1 st0, by decide,
    ((claim_C6 os0).2 [' ', '\t', '\n'] (by decide)).1⟩

/-- C9: whenever the first element is exactly "exit" — however many
further arguments follow — `lsh_execute` dispatches to `lsh_exit`,
which ignores the vector, changes no state, produces no output, and
returns 0. -/
theorem claim_C9 (os : OS) (rest : List (List Char)) (s : ShellState) :
    lsh_execute os ("exit".toList :: rest) s = (0, s) ∧
    lsh_execute os ("exit".toList :: rest) s =
      lsh_exit ("exit".toList :: rest) s ∧
    (∀ (args : List (List Char)) (s2 : ShellState),
      lsh_exit args s2 = (0, s2)) := by
  refine ⟨?_, ?_, fun args s2 => rfl⟩ <;> rfl

/-- C5: `lsh_cd` with no second argument writes exactly one usage message
to stderr and leaves the working directory (and stdout) unchanged; with a
second argument the OS refuses, the OS error message is written to stderr
and the directory is unchanged; in every case the returned status is 1. -/
theorem claim_C5 (os : OS) (args : List (List Char)) (s : ShellState) :
    (lsh_cd os args s).1 = 1 ∧
    (args.get? 1 = none →
      lsh_cd os args s =
        (1, { s with err := s.err ++ ["lsh: expected argument to \"cd\"\n"] })) ∧
    (∀ dir, args.get? 1 = some dir → os.chdir s.cwd dir = none →
      lsh_cd os args s = (1, { s with err := s.err ++ [os.chdirErrMsg dir] })) := by
  refine ⟨lsh_cd_fst os args s, ?_, ?_⟩
  · intro h
    unfold lsh_cd
    rw [h]
  · intro dir h1 h2
    have step1 : lsh_cd os args s =
        match os.chdir s.cwd dir with
        | some newCwd => (1, { s with cwd := newCwd })
        | none => (1, { s with err := s.err ++ [os.chdirErrMsg dir] }) := by
      unfold lsh_cd
      rw [h1]
    rw [step1, h2]

theorem claim_C5_witness :
    (["cd".toList].get? 1 = none ∧
      lsh_cd os0 ["cd".toList] st0 =
        (1, { st0 with err :=
          st0.err ++ ["lsh: expected argument to \"cd\"\n"] })) ∧
    (["cd".toList, "/tmp".toList].get? 1 = some "/tmp".toList ∧
      os0.chdir st0.cwd "/tmp".toList = none ∧
      lsh_cd os0 ["cd".toList, "/tmp".toList] st0 =
        (1, { st0 with err :=
          st0.err ++ [os0.chdirErrMsg "/tmp".toList] })) :=
  ⟨⟨rfl, (claim_C5 os0 ["cd".toList] st0).2.1 rfl⟩,
   ⟨rfl, rfl, (claim_C5 os0 ["cd".toList, "/tmp".toList] st0).2.2
      "/tmp".toList rfl rfl⟩⟩

/-- C10: `lsh_cd` with a present second argument and a successful OS
directory change performs the directory change and nothing else — stdout
and stderr are untouched — and returns 1. -/
theorem claim_C10 (os : OS) (args : List (List Char)) (s : ShellState)
    (dir newCwd : List Char) (h1 : args.get? 1 = some dir)
    (h2 : os.chdir s.cwd dir = some newCwd) :
    lsh_cd os args s = (1, { s with cwd := newCwd }) := by
  have step1 : lsh_cd os args s =
      match os.chdir s.cwd dir with
      | some c => (1, { s with cwd := c })
      | none => (1, { s with err := s.err ++ [os.chdirErrMsg dir] }) := by
    unfold lsh_cd
    rw [h1]
  rw [step1, h2]

theorem claim_C10_witness :
    ["cd".toList, "/tmp".toList].get? 1 = some "/tmp".toList ∧
    os1.chdir st0.cwd "/tmp".toList = some "/tmp".toList ∧
    lsh_cd os1 ["cd".toList, "/tmp".toList] st0 =
      (1, { st0 with cwd := "/tmp".toList }) :=
  ⟨rfl, rfl, claim_C10 os1 ["cd".toList, "/tmp".toList] st0
    "/tmp".toList "/tmp".toList rfl rfl⟩

/-- C7: the parent wait loop of `lsh_launch` only ever ends on a status
for which the child exited normally or was terminated by a signal — never
on a stopped notification — and any run of stopped notifications before
the first terminal status is waited through without ending the loop. -/
theorem claim_C7 :
    (∀ (evs : List WaitStatus) (st : WaitStatus),
      waitpidLoop evs = some st →
        (WIFEXITED st || WIFSIGNALED st) = true ∧ WIFSTOPPED st = false) ∧
    (∀ (stops : List WaitStatus) (e : WaitStatus) (rest : List WaitStatus),
      (∀ x ∈ stops, WIFSTOPPED x = true) →
      (WIFEXITED e || WIFSIGNALED e) = true →
      waitpidLoop (stops ++ e :: rest) = some e) := by
  constructor
  · intro evs
    induction evs with
    | nil => intro st h; simp [waitpidLoop] at h
    | cons x xs ih =>
      intro st h
      by_cases hx : (WIFEXITED x || WIFSIGNALED x) = true
      · rw [waitpidLoop, if_pos hx] at h
        cases h
        refine ⟨hx, ?_⟩
        cases x <;> simp_all [WIFEXITED, WIFSIGNALED, WIFSTOPPED]
      · rw [waitpidLoop, if_neg hx] at h
        exact ih st h
  · intro stops
    induction stops with
    | nil =>
      intro e rest _ he
      rw [List.nil_append, waitpidLoop, if_pos he]
    | cons x xs ih =>
      intro e rest hall he
      have hx : WIFSTOPPED x = true := hall x (List.mem_cons_self _ _)
      have hx2 : ¬(WIFEXITED x || WIFSIGNALED x) = true := by
        cases x <;> simp_all [WIFEXITED, WIFSIGNALED, WIFSTOPPED]
      rw [List.cons_append, waitpidLoop, if_neg hx2]
      exact ih e rest (fun y hy => hall y (List.mem_cons_of_mem _ hy)) he

theorem claim_C7_witness :
    (waitpidLoop [WaitStatus.stopped 19, WaitStatus.stopped 20,
        WaitStatus.exited 0] = some (WaitStatus.exited 0)) ∧
    (WIFEXITED (WaitStatus.exited 0) || WIFSIGNALED (WaitStatus.exited 0))
        = true ∧
    WIFSTOPPED (WaitStatus.exited 0) = false :=
  ⟨claim_C7.2 [WaitStatus.stopped 19, WaitStatus.stopped 20]
      (WaitStatus.exited 0) [] (by decide) (by decide),
   claim_C7.1 [WaitStatus.stopped 19, WaitStatus.stopped 20,
      WaitStatus.exited 0] (WaitStatus.exited 0) (by decide)⟩

/-- C8: whenever the interpreter's own process exits — i.e. `main`
returns — its exit code is `EXIT_SUCCESS` (0), whatever the script did
and whatever the OS answered; a child's exit status is never propagated. -/
theorem claim_C8 (os : OS) (script : List (List Char)) (s : ShellState)
    (code : Nat) (s2 : ShellState)
    (h : main_lsh os script s = some (code, s2)) : code = 0 := by
  unfold main_lsh at h
  cases hl : lsh_loop os script s with
  | none =>
    rw [hl] at h
    exact absurd h (by simp)
  | some s3 =>
    rw [hl] at h
    have h2 : ((0 : Nat), s3) = (code, s2) := Option.some.inj h
    exact (congrArg Prod.fst h2).symm

theorem claim_C8_witness : main_lsh os0 ["exit".toList] st0 =
      some (0, { st0 with out := st0.out ++ ["> "] }) ∧ (0 : Nat) = 0 := by
  have hs : strtokAll "exit".toList = ["exit".toList] := by
    simp [strtokAll, isDelim]
  have hmain : main_lsh os0 ["exit".toList] st0 =
      some (0, { st0 with out := st0.out ++ ["> "] }) := by
    unfold main_lsh lsh_loop
    rw [hs]
    rfl
  exact ⟨hmain, claim_C8 os0 ["exit".toList] st0 0
    { st0 with out := st0.out ++ ["> "] } hmain⟩

theorem read_go_safe :
    ∀ (input : List Char) (pos bufsize : Nat), pos < bufsize →
      ∀ p ∈ (lsh_read_line_go input pos bufsize).2, p.1 < p.2 := by
  intro input
  induction input with
  | nil =>
    intro pos bufsize hlt p hp
    simp only [lsh_read_line_go, List.mem_singleton] at hp
    subst hp
    exact hlt
  | cons c cs ih =>
    intro pos bufsize hlt p hp
    by_cases hc : c = '\n'
    · rw [lsh_read_line_go, if_pos hc] at hp
      simp only [List.mem_singleton] at hp
      subst hp
      exact hlt
    · rw [lsh_read_line_go, if_neg hc] at hp
      simp only [List.mem_cons] at hp
      rcases hp with rfl | hp
      · exact hlt
      · refine ih (pos + 1) _ ?_ p hp
        by_cases hg : pos + 1 ≥ bufsize
        · rw [if_pos hg]
          calc pos + 1 ≤ bufsize := hlt
            _ < bufsize + LSH_RL_BUFSIZE := by
              simp [LSH_RL_BUFSIZE]
        · rw [if_neg hg]
          exact Nat.lt_of_not_le hg
  
theorem split_go_safe :
    ∀ (n : Nat) (pos bufsize : Nat), pos < bufsize →
      ∀ p ∈ lsh_split_line_go n pos bufsize, p.1 < p.2 := by
  intro n
  induction n with
  | zero =>
    intro pos bufsize hlt p hp
    simp only [lsh_split_line_go, List.mem_singleton] at hp
    subst hp
    exact hlt
  | succ m ih =>
    intro pos bufsize hlt p hp
    simp only [lsh_split_line_go, List.mem_cons] at hp
    rcases hp with rfl | hp
    · exact hlt
    · refine ih (pos + 1) _ ?_ p hp
      by_cases hg : pos + 1 ≥ bufsize
      · rw [if_pos hg]
        calc pos + 1 ≤ bufsize := hlt
          _ < bufsize + LSH_TOK_BUFSIZE := by
            simp [LSH_TOK_BUFSIZE]
      · rw [if_neg hg]
        exact Nat.lt_of_not_le hg

/-- C2: in `lsh_read_line` and `lsh_split_line` the capacity check runs
after every store and before the next write, so on every input every
write — each stored character, the final terminator, each token pointer,
and the null sentinel — lands at an index strictly below the buffer's
capacity at the moment of the write. -/
theorem claim_C2 :
    (∀ (input : List Char), ∀ p ∈ (lsh_read_line input).2, p.1 < p.2) ∧
    (∀ (line : List Char), ∀ p ∈ lsh_split_line_writes line, p.1 < p.2) := by
  constructor
  · intro input p hp
    exact read_go_safe input 0 LSH_RL_BUFSIZE (by simp [LSH_RL_BUFSIZE]) p hp
  · intro line p hp
    exact split_go_safe (strtokAll line).length 0 LSH_TOK_BUFSIZE
      (by simp [LSH_TOK_BUFSIZE]) p hp

theorem claim_C2_witness :
    ((0, LSH_RL_BUFSIZE) ∈ (lsh_read_line ['h', 'i']).2 ∧
      (0 : Nat) < LSH_RL_BUFSIZE) ∧
    ((0, LSH_TOK_BUFSIZE) ∈ lsh_split_line_writes ['h', 'i'] ∧
      (0 : Nat) < LSH_TOK_BUFSIZE) := by
  have h1 : (0, LSH_RL_BUFSIZE) ∈ (lsh_read_line ['h', 'i']).2 := by
    simp [lsh_read_line, lsh_read_line_go, LSH_RL_BUFSIZE]
  have h2 : (0, LSH_TOK_BUFSIZE) ∈ lsh_split_line_writes ['h', 'i'] := by
    have hs : strtokAll ['h', 'i'] = [['h', 'i']] := by
      simp [strtokAll, isDelim]
    simp [lsh_split_line_writes, hs, lsh_split_line_go, LSH_TOK_BUFSIZE]
  exact ⟨⟨h1, claim_C2.1 ['h', 'i'] (0, LSH_RL_BUFSIZE) h1⟩,
    ⟨h2, claim_C2.2 ['h', 'i'] (0, LSH_TOK_BUFSIZE) h2⟩⟩

theorem dropWhile_head_false (q : Char → Bool) :
    ∀ (l : List Char) (d : Char) (ds : List Char),
      l.dropWhile q = d :: ds → q d = false := by
  intro l
  induction l with
  | nil => intro d ds h; simp at h
  | cons c cs ih =>
    intro d ds h
    by_cases hc : q c
    · rw [List.dropWhile_cons, if_pos hc] at h
      exact ih d ds h
    · rw [List.dropWhile_cons, if_neg hc] at h
      cases h
      exact Bool.eq_false_iff.mpr hc

theorem strtokAll_eq_specTokenize : ∀ l : List Char,
    strtokAll l = specTokenize l := by
  intro l
  induction l using strtokAll.induct with
  | case1 => rw [strtokAll]; simp [specTokenize]
  | case2 c cs hc ih =>
    rw [strtokAll, if_pos hc, ih]
    simp [specTokenize, List.splitOnP_cons, hc]
  | case3 c cs hc ih =>
    rw [strtokAll, if_neg hc]
    have hw : ∀ x ∈ c :: cs.takeWhile (fun x => !isDelim x), ¬isDelim x := by
      intro x hx
      rcases List.mem_cons.mp hx with rfl | hx2
      · exact hc
      · have := List.mem_takeWhile_imp hx2
        simp at this
        simp [this]
    cases hm : cs.dropWhile (fun x => !isDelim x) with
    | nil =>
      have hcs : cs.takeWhile (fun x => !isDelim x) = cs := by
        have := List.takeWhile_append_dropWhile (fun x => !isDelim x) cs
        rw [hm, List.append_nil] at this
        exact this
      have hnil : strtokAll ([] : List Char) = [] := by rw [strtokAll]
      rw [hnil]
      unfold specTokenize
      rw [List.splitOnP_eq_single isDelim _ (by rw [hcs] at hw; exact hw)]
      simp [hcs]
    | cons d ds =>
      have hd : isDelim d = true := by
        have := dropWhile_head_false (fun x => !isDelim x) cs d ds hm
        simpa using this
      have hdecomp : c :: cs =
          (c :: cs.takeWhile (fun x => !isDelim x)) ++ d :: ds := by
        have := List.takeWhile_append_dropWhile (fun x => !isDelim x) cs
        rw [hm] at this
        rw [List.cons_append, this]
      have hspec : specTokenize (c :: cs) =
          (c :: cs.takeWhile (fun x => !isDelim x)) :: specTokenize ds := by
        unfold specTokenize
        rw [hdecomp, List.splitOnP_first isDelim _ hw d hd ds]
        simp
      have hspec2 : specTokenize (d :: ds) = specTokenize ds := by
        unfold specTokenize
        rw [List.splitOnP_cons, if_pos hd]
        simp
      rw [hm] at ih
      rw [hspec, ih, hspec2]

theorem strtokAll_tokens_ne_nil : ∀ l : List Char, ∀ t ∈ strtokAll l,
    t ≠ [] := by
  intro l
  induction l using strtokAll.induct with
  | case1 => intro t ht; rw [strtokAll] at ht; simp at ht
  | case2 c cs hc ih =>
    intro t ht
    rw [strtokAll, if_pos hc] at ht
    exact ih t ht
  | case3 c cs hc ih =>
    intro t ht
    rw [strtokAll, if_neg hc] at ht
    rcases List.mem_cons.mp ht with rfl | ht2
    · exact List.cons_ne_nil _ _
    · exact ih t ht2

/-- C3: `lsh_split_line` splits on exactly the delimiter set space, tab,
carriage return, newline, bell, treating runs of delimiters as one
separator and dropping leading/trailing delimiters (this is
`specTokenize`); no emitted token is empty; the array entry immediately
after the last token is the null sentinel — the very first entry when
there are zero tokens. -/
theorem claim_C3 (line : List Char) :
    strtokAll line = specTokenize line ∧
    (∀ t ∈ strtokAll line, t ≠ []) ∧
    (lsh_split_line line).get? (strtokAll line).length = some none ∧
    (strtokAll line = [] → lsh_split_line line = [none]) := by
  refine ⟨strtokAll_eq_specTokenize line, strtokAll_tokens_ne_nil line,
    ?_, ?_⟩
  · unfold lsh_split_line
    have hlen : ((strtokAll line).map some).length =
        (strtokAll line).length := List.length_map _ _
    rw [← hlen, List.get?_eq_getElem?]
    exact List.getElem?_concat_length _ _
  · intro h
    unfold lsh_split_line
    rw [h]
    rfl

theorem claim_C3_witness :
    strtokAll ['a', ' ', ' ', 'b'] = specTokenize ['a', ' ', ' ', 'b'] ∧
    (['a'] ∈ strtokAll ['a', ' ', ' ', 'b'] ∧ (['a'] : List Char) ≠ []) ∧
    (lsh_split_line ['a', ' ', ' ', 'b']).get? 2 = some none ∧
    (strtokAll [' '] = [] ∧ lsh_split_line [' '] = [none]) := by
  have h1 : strtokAll ['a', ' ', ' ', 'b'] = [['a'], ['b']] := by
    simp [strtokAll, isDelim]
  have hmem : ['a'] ∈ strtokAll ['a', ' ', ' ', 'b'] := by rw [h1]; simp
  have hsp : strtokAll [' '] = [] := by simp [strtokAll, isDelim]
  have hget := (claim_C3 ['a', ' ', ' ', 'b']).2.2.1
  rw [h1] at hget
  exact ⟨(claim_C3 ['a', ' ', ' ', 'b']).1,
    ⟨hmem, (claim_C3 ['a', ' ', ' ', 'b']).2.1 ['a'] hmem⟩,
    hget,
    hsp, (claim_C3 [' ']).2.2.2 hsp⟩

theorem takeWhile_append_all (q : Char → Bool) :
    ∀ (w rest : List Char), (∀ c ∈ w, q c = true) →
      (w ++ rest).takeWhile q = w ++ rest.takeWhile q := by
  intro w
  induction w with
  | nil => intro rest _; simp
  | cons a w2 ih =>
    intro rest h
    rw [List.cons_append, List.takeWhile_cons,
      if_pos (h a (List.mem_cons_self _ _)), List.cons_append,
      ih rest (fun c hc => h c (List.mem_cons_of_mem _ hc))]

theorem dropWhile_append_all (q : Char → Bool) :
    ∀ (w rest : List Char), (∀ c ∈ w, q c = true) →
      (w ++ rest).dropWhile q = rest.dropWhile q := by
  intro w
  induction w with
  | nil => intro rest _; simp
  | cons a w2 ih =>
    intro rest h
    rw [List.cons_append, List.dropWhile_cons,
      if_pos (h a (List.mem_cons_self _ _)),
      ih rest (fun c hc => h c (List.mem_cons_of_mem _ hc))]

theorem strtokAll_delim_skip :
    ∀ (d rest : List Char), (∀ c ∈ d, isDelim c = true) →
      strtokAll (d ++ rest) = strtokAll rest := by
  intro d
  induction d with
  | nil => intro rest _; rw [List.nil_append]
  | cons a d2 ih =>
    intro rest h
    rw [List.cons_append, strtokAll,
      if_pos (h a (List.mem_cons_self _ _)),
      ih rest (fun c hc => h c (List.mem_cons_of_mem _ hc))]

theorem strtokAll_word_head (w rest : List Char) (hw : w ≠ [])
    (hall : ∀ c ∈ w, isDelim c = false)
    (hrest : ∀ d ∈ rest.head?, isDelim d = true) :
    strtokAll (w ++ rest) = w :: strtokAll rest := by
  cases w with
  | nil => exact absurd rfl hw
  | cons a w2 =>
    have hq : ∀ c ∈ w2, (fun x => !isDelim x) c = true := by
      intro c hc
      simp [hall c (List.mem_cons_of_mem _ hc)]
    have htake : rest.takeWhile (fun x => !isDelim x) = [] := by
      cases rest with
      | nil => rfl
      | cons d ds =>
        have hd : isDelim d = true := hrest d (by simp)
        rw [List.takeWhile_cons, if_neg (by simp [hd])]
    have hdrop : rest.dropWhile (fun x => !isDelim x) = rest := by
      cases rest with
      | nil => rfl
      | cons d ds =>
        have hd : isDelim d = true := hrest d (by simp)
        rw [List.dropWhile_cons, if_neg (by simp [hd])]
    rw [List.cons_append, strtokAll,
      if_neg (by simp [hall a (List.mem_cons_self _ _)]),
      takeWhile_append_all _ w2 rest hq, dropWhile_append_all _ w2 rest hq,
      htake, hdrop, List.append_nil]

/-- A well-formed "line of whitespace-separated words": each pair is a
word (non-empty, delimiter-free) followed by a separator run (delimiter
characters only, non-empty except possibly after the last word). -/
def goodPairs : List (List Char × List Char) → Bool
  | [] => true
  | (w, sep) :: rest =>
      !w.isEmpty && w.all (fun c => !isDelim c) && sep.all isDelim &&
      (rest.isEmpty || !sep.isEmpty) && goodPairs rest

/-- A raw input line assembled from leading whitespace `sep0` and the
word/separator pairs. -/
def mkLine (sep0 : List Char) (pairs : List (List Char × List Char)) :
    List Char :=
  sep0 ++ (pairs.map (fun pr => pr.1 ++ pr.2)).flatten

theorem strtokAll_mkLine_body :
    ∀ (pairs : List (List Char × List Char)), goodPairs pairs = true →
      strtokAll ((pairs.map (fun pr => pr.1 ++ pr.2)).flatten) =
        pairs.map Prod.fst := by
  intro pairs
  induction pairs with
  | nil =>
    intro _
    rw [List.map_nil, List.flatten_nil, strtokAll, List.map_nil]
  | cons pr rest ih =>
    obtain ⟨w, sep⟩ := pr
    intro h
    simp only [goodPairs, Bool.and_eq_true] at h
    obtain ⟨⟨⟨⟨hw, hwall⟩, hsall⟩, hre⟩, hrest⟩ := h
    have hw2 : w ≠ [] := by
      cases w
      · simp at hw
      · exact List.cons_ne_nil _ _
    have hwall2 : ∀ c ∈ w, isDelim c = false := by
      intro c hc
      have := List.all_eq_true.mp hwall c hc
      simpa using this
    have hsall2 : ∀ c ∈ sep, isDelim c = true := by
      intro c hc
      exact List.all_eq_true.mp hsall c hc
    rw [List.map_cons, List.flatten_cons, List.append_assoc]
    have hhead : ∀ d ∈ (sep ++ (rest.map (fun pr => pr.1 ++ pr.2)).flatten).head?,
        isDelim d = true := by
      cases hsep : sep with
      | cons d ds =>
        intro x hx
        simp only [List.cons_append, List.head?_cons,
          Option.mem_def, Option.some.injEq] at hx
        subst hx
        exact hsall2 d (by rw [hsep]; exact List.mem_cons_self _ _)
      | nil =>
        rw [hsep] at hre
        simp only [List.isEmpty_nil, Bool.not_true, Bool.or_false] at hre
        have hrnil : rest = [] := by
          cases rest
          · rfl
          · simp at hre
        subst hrnil
        intro x hx
        simp at hx
    rw [strtokAll_word_head w _ hw2 hwall2 hhead,
      strtokAll_delim_skip sep _ hsall2,
      ih hrest, List.map_cons]

/-- C4: a line made of N whitespace-separated non-empty words tokenizes
to exactly those N words; `lsh_split_line` returns exactly N entries
followed by the null sentinel; and re-joining the tokens with single
spaces reproduces the original words. -/
theorem claim_C4 (sep0 : List Char) (pairs : List (List Char × List Char))
    (h0 : ∀ c ∈ sep0, isDelim c = true) (h : goodPairs pairs = true) :
    strtokAll (mkLine sep0 pairs) = pairs.map Prod.fst ∧
    lsh_split_line (mkLine sep0 pairs) =
      (pairs.map Prod.fst).map some ++ [none] ∧
    (lsh_split_line (mkLine sep0 pairs)).length = pairs.length + 1 ∧
    List.intercalate [' '] (strtokAll (mkLine sep0 pairs)) =
      List.intercalate [' '] (pairs.map Prod.fst) := by
  have htok : strtokAll (mkLine sep0 pairs) = pairs.map Prod.fst := by
    unfold mkLine
    rw [strtokAll_delim_skip sep0 _ h0, strtokAll_mkLine_body pairs h]
  refine ⟨htok, ?_, ?_, by rw [htok]⟩
  · unfold lsh_split_line
    rw [htok]
  · unfold lsh_split_line
    rw [htok]
    simp

theorem claim_C4_witness :
    (∀ c ∈ ([' '] : List Char), isDelim c = true) ∧
    goodPairs [("ls".toList, [' ', '\t']), ("-la".toList, [])] = true ∧
    strtokAll (mkLine [' '] [("ls".toList, [' ', '\t']), ("-la".toList, [])])
      = ["ls".toList, "-la".toList] ∧
    (lsh_split_line
      (mkLine [' '] [("ls".toList, [' ', '\t']), ("-la".toList, [])])).length
      = 3 := by
  have h := claim_C4 [' '] [("ls".toList, [' ', '\t']), ("-la".toList, [])]
    (by decide) (by decide)
  exact ⟨by decide, by decide, h.1, h.2.2.1⟩
